import Mathlib

/-!
# Verification of `gitconfig_helper.py`

A shallow embedding of the branch-cleanup and switch-to-main logic of
`gitconfig_helper.py`.  Strings are modelled as `List Char`; the Python string
operations used by the script (`strip`, `split`, `split("\n")`, `lstrip("*")`,
`startswith`, substring membership) are defined structurally below, and the
two orchestrators are modelled as functions over a record of backend responses
that also produce the trace of git primitives they invoke.
-/

set_option autoImplicit false

abbrev Str := List Char

/-- The whitespace class used by Python's default `str.strip()` / `str.split()`
(ASCII part, which is all that git output contains). -/
def isSpace (c : Char) : Bool :=
  c = ' ' || c = '\t' || c = '\n' || c = '\r' || c = '\x0b' || c = '\x0c'

/-- Drop leading characters satisfying `p` (Python `lstrip`). -/
def lstripBy (p : Char → Bool) : Str → Str
  | [] => []
  | c :: cs => if p c then lstripBy p cs else c :: cs

/-- Drop trailing characters satisfying `p` (Python `rstrip`). -/
def rstripBy (p : Char → Bool) (s : Str) : Str :=
  (lstripBy p s.reverse).reverse

/-- Python `str.strip()` with no argument. -/
def pyStrip (s : Str) : Str :=
  rstripBy isSpace (lstripBy isSpace s)

/-- Python `str.split("\n")`: split at every newline, keeping empty pieces. -/
def splitOnNl : Str → List Str
  | [] => [[]]
  | c :: cs =>
    if c = '\n' then [] :: splitOnNl cs
    else
      match splitOnNl cs with
      | [] => [[c]]
      | t :: ts => (c :: t) :: ts

/-- Worker for `pySplit`: `cur` is the reversed current token. -/
def splitWsAux (cur : Str) : Str → List Str
  | [] => if cur = [] then [] else [cur.reverse]
  | c :: cs =>
    if isSpace c then
      if cur = [] then splitWsAux [] cs
      else cur.reverse :: splitWsAux [] cs
    else splitWsAux (c :: cur) cs

/-- Python `str.split()` with no argument: whitespace-delimited tokens,
runs of whitespace collapsed, no empty tokens. -/
def pySplit (s : Str) : List Str := splitWsAux [] s

/-- Python `line.startswith("*")`. -/
def startsWithStar : Str → Bool
  | [] => false
  | c :: _ => c = '*'

/-- Python `s.lstrip("*")`. -/
def lstripStars (s : Str) : Str := lstripBy (fun c => c = '*') s

/-- `pat` is a leading segment of `s` (boolean). -/
def isPrefixOfB : Str → Str → Bool
  | [], _ => true
  | _ :: _, [] => false
  | a :: as, b :: bs => a = b && isPrefixOfB as bs

/-- Python `pat in s`: `pat` occurs contiguously inside `s`. -/
def containsSub (pat : Str) (s : Str) : Bool :=
  match s with
  | [] => isPrefixOfB pat []
  | _ :: cs => isPrefixOfB pat s || containsSub pat cs

/-! ## Branch classification (`cleanup_branches`, lines 84-107)

For each line of `git branch -vv` output the script skips blank lines and the
current branch (a line starting with `*`), extracts the branch name as
`line.strip().split()[0].lstrip("*").strip()`, and then tests
`has_no_remote = "[origin/" not in line` and `remote_is_gone = ": gone]" in line`.
-/

/-- `"[origin/" not in line` (line 99 of the source). -/
def has_no_remote (line : Str) : Bool := !(containsSub "[origin/".toList line)

/-- `": gone]" in line` (line 100 of the source). -/
def remote_is_gone (line : Str) : Bool := containsSub ": gone]".toList line

/-- The branch name the script extracts from a listing line:
`line.strip().split()[0].lstrip("*").strip()` (line 96; also used for the
before/after snapshots at lines 62-66 and 119-123). -/
def branch_name (line : Str) : Str :=
  pyStrip (lstripStars ((pySplit (pyStrip line)).headD []))

/-- One iteration of the classification loop (lines 85-107): possibly append
the line's branch name to the accumulated deletion list. -/
def cleanupStep (force : Bool) (acc : List Str) (line : Str) : List Str :=
  if pyStrip line = [] then acc
  else if startsWithStar line then acc
  else
    match pySplit (pyStrip line) with
    | [] => acc
    | p :: _ =>
      let bn := pyStrip (lstripStars p)
      if has_no_remote line then acc ++ [bn]
      else if remote_is_gone line && force then acc ++ [bn]
      else acc

/-- `branches_to_delete` (lines 84-107): fold the loop body over
`result_vv.stdout.strip().split("\n")`. -/
def branches_to_delete (stdout : Str) (force : Bool) : List Str :=
  (splitOnNl (pyStrip stdout)).foldl (cleanupStep force) []

/-- Whether a single listing line places its branch in the deletion plan:
the guards of the loop body combined with the classification test. -/
def line_selected (force : Bool) (line : Str) : Bool :=
  if pyStrip line = [] then false
  else if startsWithStar line then false
  else
    match pySplit (pyStrip line) with
    | [] => false
    | _ :: _ => has_no_remote line || (remote_is_gone line && force)

/-- The spec's scenario listing. -/
def exampleListing : Str :=
  "* main\n  feature-a [origin/feature-a]\n  feature-b [origin/feature-b: gone]\n  feature-c\n".toList

example : branches_to_delete exampleListing false = ["feature-c".toList] := by decide
example : branches_to_delete exampleListing true
    = ["feature-b".toList, "feature-c".toList] := by decide
example : remote_is_gone "  foo [upstream/foo: gone]".toList = true := by decide
example : "foo".toList ∈ branches_to_delete "  foo [upstream/foo: gone]".toList false := by
  decide

/-! ## Characterization of the deletion plan -/

theorem cleanupStep_eq (force : Bool) (acc : List Str) (line : Str) :
    cleanupStep force acc line =
      acc ++ (if line_selected force line = true then [branch_name line] else []) := by
  by_cases h1 : pyStrip line = []
  · simp [cleanupStep, line_selected, h1]
  · by_cases h2 : startsWithStar line = true
    · simp [cleanupStep, line_selected, h1, h2]
    · cases hp : pySplit (pyStrip line) with
      | nil => simp [cleanupStep, line_selected, h1, h2, hp]
      | cons p rest =>
        have hbn : branch_name line = pyStrip (lstripStars p) := by
          simp [branch_name, hp]
        by_cases h3 : has_no_remote line = true
        · simp [cleanupStep, line_selected, h1, h2, hp, h3, hbn]
        · by_cases h4 : (remote_is_gone line && force) = true
          · simp [cleanupStep, line_selected, h1, h2, hp, h3, h4, hbn]
          · simp [cleanupStep, line_selected, h1, h2, hp, h3, h4]

theorem foldl_cleanupStep (force : Bool) :
    ∀ (ls : List Str) (acc : List Str),
      ls.foldl (cleanupStep force) acc
        = acc ++ ls.filterMap
            (fun l => if line_selected force l = true then some (branch_name l) else none)
  | [], acc => by simp
  | l :: ls, acc => by
    rw [List.foldl_cons, cleanupStep_eq, foldl_cleanupStep force ls]
    by_cases h : line_selected force l = true
    · simp [h, List.filterMap_cons]
    · simp [h, List.filterMap_cons]

theorem branches_to_delete_eq (stdout : Str) (force : Bool) :
    branches_to_delete stdout force
      = (splitOnNl (pyStrip stdout)).filterMap
          (fun l => if line_selected force l = true then some (branch_name l) else none) := by
  unfold branches_to_delete
  simpa using foldl_cleanupStep force (splitOnNl (pyStrip stdout)) []

theorem mem_branches_to_delete {stdout : Str} {force : Bool} {n : Str} :
    n ∈ branches_to_delete stdout force ↔
      ∃ l ∈ splitOnNl (pyStrip stdout), line_selected force l = true ∧ branch_name l = n := by
  rw [branches_to_delete_eq, List.mem_filterMap]
  constructor
  · rintro ⟨l, hl, he⟩
    by_cases h : line_selected force l = true
    · exact ⟨l, hl, h, by simpa [h] using he⟩
    · simp [h] at he
  · rintro ⟨l, hl, hsel, hn⟩
    exact ⟨l, hl, by simp [hsel, hn]⟩

/-! ## Small facts about the string operations -/

theorem isPrefixOfB_head {a : Char} {p : Str} {b : Char} {bs : Str}
    (h : isPrefixOfB (a :: p) (b :: bs) = true) : a = b := by
  rw [isPrefixOfB, Bool.and_eq_true] at h
  exact of_decide_eq_true h.1

theorem containsSub_head_mem {a : Char} {p s : Str}
    (h : containsSub (a :: p) s = true) : a ∈ s := by
  induction s with
  | nil => simp [containsSub, isPrefixOfB] at h
  | cons b bs ih =>
    rw [containsSub, Bool.or_eq_true] at h
    rcases h with h | h
    · rw [isPrefixOfB_head h]; exact List.mem_cons_self b bs
    · exact List.mem_cons_of_mem b (ih h)

theorem mem_lstripBy {p : Char → Bool} {c : Char} {s : Str} (hc : p c = false)
    (hm : c ∈ s) : c ∈ lstripBy p s := by
  induction s with
  | nil => cases hm
  | cons a as ih =>
    rw [lstripBy]
    by_cases ha : p a = true
    · rw [if_pos ha]
      apply ih
      rcases List.mem_cons.mp hm with h | h
      · subst h; rw [hc] at ha; cases ha
      · exact h
    · rw [if_neg ha]; exact hm

theorem mem_pyStrip {c : Char} {s : Str} (hc : isSpace c = false) (hm : c ∈ s) :
    c ∈ pyStrip s := by
  unfold pyStrip rstripBy
  exact List.mem_reverse.mpr
    (mem_lstripBy hc (List.mem_reverse.mpr (mem_lstripBy hc hm)))

theorem pyStrip_ne_nil {c : Char} {s : Str} (hc : isSpace c = false) (hm : c ∈ s) :
    pyStrip s ≠ [] :=
  List.ne_nil_of_mem (mem_pyStrip hc hm)

theorem splitWsAux_ne_nil : ∀ (s : Str) (cur : Str),
    (cur ≠ [] ∨ ∃ c ∈ s, isSpace c = false) → splitWsAux cur s ≠ []
  | [], cur, h => by
    rcases h with h | ⟨c, hc, _⟩
    · simp [splitWsAux, h]
    · cases hc
  | a :: as, cur, h => by
    rw [splitWsAux]
    by_cases ha : isSpace a = true
    · by_cases hcur : cur = []
      · rw [if_pos ha, if_pos hcur]
        apply splitWsAux_ne_nil as []
        right
        rcases h with h | ⟨c, hc, hcs⟩
        · exact absurd hcur h
        · rcases List.mem_cons.mp hc with rfl | h'
          · rw [ha] at hcs; cases hcs
          · exact ⟨c, h', hcs⟩
      · rw [if_pos ha, if_neg hcur]
        exact List.cons_ne_nil _ _
    · rw [if_neg ha]
      exact splitWsAux_ne_nil as (a :: cur) (Or.inl (List.cons_ne_nil _ _))

theorem pySplit_ne_nil {s : Str} {c : Char} (hc : isSpace c = false) (hm : c ∈ s) :
    pySplit s ≠ [] :=
  splitWsAux_ne_nil s [] (Or.inr ⟨c, hm, hc⟩)

theorem line_selected_iff {force : Bool} {l : Str} :
    line_selected force l = true ↔
      pyStrip l ≠ [] ∧ startsWithStar l = false ∧ pySplit (pyStrip l) ≠ [] ∧
        (has_no_remote l = true ∨ (remote_is_gone l = true ∧ force = true)) := by
  unfold line_selected
  by_cases h1 : pyStrip l = []
  · simp [h1]
  · by_cases h2 : startsWithStar l = true
    · simp [h1, h2]
    · cases hp : pySplit (pyStrip l) with
      | nil => simp [h1, h2, hp]
      | cons p rest =>
        simp [h1, h2, hp, Bool.or_eq_true, Bool.and_eq_true,
          Bool.not_eq_true, List.cons_ne_nil]

/-! ## Claims C1-C4: the classification policy -/

/-- C1: for every listing and force flag, a name is placed in the deletion plan
exactly when some listing line surviving the loop guards (non-blank, not the
current branch, with a first token) extracts to that name and either carries no
origin tracking mark (regardless of force) or carries the gone marker while
force is set; in particular on the scenario listing the plan is [feature-c]
for force = false and [feature-b, feature-c] for force = true. -/
theorem C1_classification :
    (∀ (stdout : Str) (force : Bool) (n : Str),
        n ∈ branches_to_delete stdout force ↔
          ∃ l ∈ splitOnNl (pyStrip stdout),
            (pyStrip l ≠ [] ∧ startsWithStar l = false ∧ pySplit (pyStrip l) ≠ []) ∧
            branch_name l = n ∧
            (has_no_remote l = true ∨ (remote_is_gone l = true ∧ force = true)))
    ∧ branches_to_delete exampleListing false = ["feature-c".toList]
    ∧ branches_to_delete exampleListing true = ["feature-b".toList, "feature-c".toList] := by
  refine ⟨?_, by decide, by decide⟩
  intro stdout force n
  rw [mem_branches_to_delete]
  constructor
  · rintro ⟨l, hl, hsel, hn⟩
    rcases line_selected_iff.mp hsel with ⟨a, b, c, d⟩
    exact ⟨l, hl, ⟨a, b, c⟩, hn, d⟩
  · rintro ⟨l, hl, ⟨a, b, c⟩, hn, d⟩
    exact ⟨l, hl, line_selected_iff.mpr ⟨a, b, c, d⟩, hn⟩

/-- Witness for `C1_classification`: the characterization instantiated on the
scenario listing puts feature-c in the plan without force. -/
theorem C1_classification_witness :
    "feature-c".toList ∈ branches_to_delete exampleListing false :=
  (C1_classification.1 exampleListing false "feature-c".toList).mpr
    ⟨"  feature-c".toList, by decide, ⟨by decide, by decide, by decide⟩,
      by decide, Or.inl (by decide)⟩

/-- C2 counterexample: the line `"  foo [upstream/foo: gone]"` carries the gone
marker and is not the current branch, yet `foo` is in the deletion plan with
`force = false`: the line lacks the `[origin/` mark, so the no-remote-tracking
rule fires first, contradicting "gone marker in the plan iff force". -/
theorem C2_counterexample :
    remote_is_gone "  foo [upstream/foo: gone]".toList = true ∧
    startsWithStar "  foo [upstream/foo: gone]".toList = false ∧
    "foo".toList ∈ branches_to_delete "  foo [upstream/foo: gone]".toList false := by
  refine ⟨by decide, by decide, by decide⟩

/-- C2 amended: a non-current branch whose line carries the gone marker AND an
origin tracking mark (`[origin/` in the line), and whose extracted name occurs
on no other listing line, is in the deletion plan iff `force = true`. -/
theorem C2_amended_gone_iff_force :
    ∀ (stdout : Str) (force : Bool) (line : Str),
      line ∈ splitOnNl (pyStrip stdout) →
      startsWithStar line = false →
      remote_is_gone line = true →
      has_no_remote line = false →
      (∀ l ∈ splitOnNl (pyStrip stdout), branch_name l = branch_name line → l = line) →
      (branch_name line ∈ branches_to_delete stdout force ↔ force = true) := by
  intro stdout force line hline hstar hgone hrem huniq
  have hcolon : (':' : Char) ∈ line := by
    have e : containsSub (':' :: " gone]".toList) line = true := by
      have e2 : (':' :: " gone]".toList) = ": gone]".toList := by decide
      rw [e2]; exact hgone
    exact containsSub_head_mem e
  have hsp : isSpace ':' = false := by decide
  have hstrip : pyStrip line ≠ [] := pyStrip_ne_nil hsp hcolon
  have hsplit : pySplit (pyStrip line) ≠ [] :=
    pySplit_ne_nil hsp (mem_pyStrip hsp hcolon)
  constructor
  · intro hmem
    rcases mem_branches_to_delete.mp hmem with ⟨l, hl, hsel, hn⟩
    have hle : l = line := huniq l hl hn
    subst hle
    rcases line_selected_iff.mp hsel with ⟨-, -, -, hd⟩
    rcases hd with hd | ⟨-, hf⟩
    · rw [hrem] at hd; cases hd
    · exact hf
  · intro hf
    apply mem_branches_to_delete.mpr
    exact ⟨line, hline,
      line_selected_iff.mpr ⟨hstrip, hstar, hsplit, Or.inr ⟨hgone, hf⟩⟩, rfl⟩

/-- Witness for `C2_amended_gone_iff_force` on the scenario listing's
feature-b line with force set. -/
theorem C2_amended_witness :
    (branch_name "  feature-b [origin/feature-b: gone]".toList
        ∈ branches_to_delete exampleListing true ↔ true = true) :=
  C2_amended_gone_iff_force exampleListing true
    "  feature-b [origin/feature-b: gone]".toList
    (by decide) (by decide) (by decide) (by decide) (by decide)

/-- C3: a branch every one of whose listing lines carries a live tracking
reference (an origin mark and no gone marker) is never in the deletion plan,
for either value of force. -/
theorem C3_live_tracking_never_deleted :
    ∀ (stdout : Str) (force : Bool) (n : Str),
      (∀ l ∈ splitOnNl (pyStrip stdout), branch_name l = n →
        has_no_remote l = false ∧ remote_is_gone l = false) →
      n ∉ branches_to_delete stdout force := by
  intro stdout force n h hmem
  rcases mem_branches_to_delete.mp hmem with ⟨l, hl, hsel, hn⟩
  rcases line_selected_iff.mp hsel with ⟨-, -, -, hd⟩
  rcases h l hl hn with ⟨hno, hgone⟩
  rcases hd with hd | ⟨hd, -⟩
  · rw [hno] at hd; cases hd
  · rw [hgone] at hd; cases hd

/-- Witness for `C3_live_tracking_never_deleted`: feature-a survives the
scenario listing even with force set. -/
theorem C3_witness :
    "feature-a".toList ∉ branches_to_delete exampleListing true :=
  C3_live_tracking_never_deleted exampleListing true "feature-a".toList (by decide)

/-- C4: a name whose every listing line carries the current-branch `*` marker
(in particular, the current branch when names are unique) is never in the
deletion plan, for either value of force. -/
theorem C4_current_branch_never_deleted :
    ∀ (stdout : Str) (force : Bool) (n : Str),
      (∀ l ∈ splitOnNl (pyStrip stdout), branch_name l = n → startsWithStar l = true) →
      n ∉ branches_to_delete stdout force := by
  intro stdout force n h hmem
  rcases mem_branches_to_delete.mp hmem with ⟨l, hl, hsel, hn⟩
  rcases line_selected_iff.mp hsel with ⟨-, hstar, -, -⟩
  rw [h l hl hn] at hstar; cases hstar

/-- Witness for `C4_current_branch_never_deleted`: main survives the scenario
listing even with force set. -/
theorem C4_witness :
    "main".toList ∉ branches_to_delete exampleListing true :=
  C4_current_branch_never_deleted exampleListing true "main".toList (by decide)

/-! ## Sync Controller (`switch_to_main`, lines 219-305)

The function is modelled over a record of backend responses; the result pairs
the terminal stage (one per return site of the source) with the list of git
primitives invoked, in order.  Exit-code semantics: `Success` returns 0, every
other stage returns 1.
-/

/-- Git primitives the script can invoke. -/
inductive Cmd
  | revParseGitDir
  | revParseHead
  | fetchPrune
  | statusQuery
  | checkoutMain
  | pullGit
deriving DecidableEq

/-- Terminal stages of `switch_to_main`, one per return site. -/
inductive Stage
  | NotARepo
  | FetchFailed
  | DirtyWorkingTree
  | CheckoutFailed
  | MergeConflict
  | PullFailed
  | Success
deriving DecidableEq

/-- Backend responses consumed by one run of `switch_to_main`. -/
structure SyncBackend where
  gitDirCode : Nat
  headName : Str
  fetchCode : Nat
  statusOut1 : Str
  checkoutCode : Nat
  pullCode : Nat
  statusOut2 : Str

/-- The conflict test at line 288:
`"UU" in status or "AA" in status or "DD" in status`. -/
def conflictMarkers (s : Str) : Bool :=
  containsSub "UU".toList s || containsSub "AA".toList s || containsSub "DD".toList s

/-- Steps 5-6 of `switch_to_main` (lines 278-301): pull, and on failure
re-query status and discriminate merge conflicts. -/
def syncPull (b : SyncBackend) (t : List Cmd) : Stage × List Cmd :=
  if b.pullCode ≠ 0 then
    if conflictMarkers b.statusOut2 then (.MergeConflict, t ++ [.pullGit, .statusQuery])
    else (.PullFailed, t ++ [.pullGit, .statusQuery])
  else (.Success, t ++ [.pullGit])

/-- `switch_to_main` (lines 219-305). -/
def switch_to_main (b : SyncBackend) : Stage × List Cmd :=
  if b.gitDirCode ≠ 0 then (.NotARepo, [.revParseGitDir])
  else if b.fetchCode ≠ 0 then (.FetchFailed, [.revParseGitDir, .revParseHead, .fetchPrune])
  else if pyStrip b.statusOut1 ≠ [] then
    (.DirtyWorkingTree, [.revParseGitDir, .revParseHead, .fetchPrune, .statusQuery])
  else if pyStrip b.headName ≠ "main".toList then
    if b.checkoutCode ≠ 0 then
      (.CheckoutFailed, [.revParseGitDir, .revParseHead, .fetchPrune, .statusQuery, .checkoutMain])
    else syncPull b [.revParseGitDir, .revParseHead, .fetchPrune, .statusQuery, .checkoutMain]
  else syncPull b [.revParseGitDir, .revParseHead, .fetchPrune, .statusQuery]

/-- C5: when the repository and fetch checks pass and the status query reports
any entries, the run ends at `DirtyWorkingTree` and neither checkout nor pull
is ever invoked. -/
theorem C5_dirty_blocks_sync :
    ∀ b : SyncBackend, b.gitDirCode = 0 → b.fetchCode = 0 →
      pyStrip b.statusOut1 ≠ [] →
      (switch_to_main b).1 = Stage.DirtyWorkingTree ∧
      Cmd.checkoutMain ∉ (switch_to_main b).2 ∧
      Cmd.pullGit ∉ (switch_to_main b).2 := by
  intro b h1 h2 h3
  unfold switch_to_main
  simp [h1, h2, h3]

/-- Witness for `C5_dirty_blocks_sync` on a concrete dirty backend. -/
theorem C5_witness :
    (switch_to_main ⟨0, "feat".toList, 0, " M file.txt".toList, 0, 0, []⟩).1
        = Stage.DirtyWorkingTree ∧
      Cmd.checkoutMain ∉ (switch_to_main ⟨0, "feat".toList, 0, " M file.txt".toList, 0, 0, []⟩).2 ∧
      Cmd.pullGit ∉ (switch_to_main ⟨0, "feat".toList, 0, " M file.txt".toList, 0, 0, []⟩).2 :=
  C5_dirty_blocks_sync ⟨0, "feat".toList, 0, " M file.txt".toList, 0, 0, []⟩
    rfl rfl (by decide)

theorem syncPull_fail (b : SyncBackend) (t : List Cmd) (h5 : b.pullCode ≠ 0) :
    syncPull b t
      = ((if conflictMarkers b.statusOut2 = true then Stage.MergeConflict
          else Stage.PullFailed), t ++ [Cmd.pullGit, Cmd.statusQuery]) := by
  unfold syncPull
  rw [if_pos h5]
  by_cases hc : conflictMarkers b.statusOut2 = true
  · rw [if_pos hc, if_pos hc]
  · rw [if_neg hc, if_neg hc]

/-- C6: whenever the pull primitive fails in a run that reached it, status is
re-queried (the trace ends with pull followed by a status query) and the
terminal stage is `MergeConflict` exactly when the re-queried status contains a
`UU`, `AA` or `DD` marker, and the generic `PullFailed` otherwise. -/
theorem C6_pull_failure_discrimination :
    ∀ b : SyncBackend, b.gitDirCode = 0 → b.fetchCode = 0 →
      pyStrip b.statusOut1 = [] →
      (pyStrip b.headName = "main".toList ∨ b.checkoutCode = 0) →
      b.pullCode ≠ 0 →
      (switch_to_main b).1
          = (if conflictMarkers b.statusOut2 = true then Stage.MergeConflict
             else Stage.PullFailed) ∧
      ∃ t, (switch_to_main b).2 = t ++ [Cmd.pullGit, Cmd.statusQuery] := by
  intro b h1 h2 h3 h4 h5
  have hs : ¬ b.gitDirCode ≠ 0 := by simp [h1]
  have hf : ¬ b.fetchCode ≠ 0 := by simp [h2]
  have hd : ¬ pyStrip b.statusOut1 ≠ [] := by simp [h3]
  unfold switch_to_main
  rw [if_neg hs, if_neg hf, if_neg hd]
  by_cases hm : pyStrip b.headName ≠ "main".toList
  · have hc0 : b.checkoutCode = 0 := by
      rcases h4 with h4 | h4
      · exact absurd h4 hm
      · exact h4
    rw [if_pos hm, if_neg (by simp [hc0]), syncPull_fail b _ h5]
    exact ⟨rfl, _, rfl⟩
  · rw [if_neg hm, syncPull_fail b _ h5]
    exact ⟨rfl, _, rfl⟩

/-- Witness for `C6_pull_failure_discrimination`: a failed pull whose
re-queried status shows an unmerged path yields `MergeConflict`. -/
theorem C6_witness :
    (switch_to_main ⟨0, "main".toList, 0, [], 0, 1, "UU file.txt".toList⟩).1
        = (if conflictMarkers "UU file.txt".toList = true then Stage.MergeConflict
           else Stage.PullFailed) ∧
      ∃ t, (switch_to_main ⟨0, "main".toList, 0, [], 0, 1, "UU file.txt".toList⟩).2
          = t ++ [Cmd.pullGit, Cmd.statusQuery] :=
  C6_pull_failure_discrimination ⟨0, "main".toList, 0, [], 0, 1, "UU file.txt".toList⟩
    rfl rfl (by decide) (Or.inl (by decide)) (by decide)

/-! ## Cleanup Orchestrator (`cleanup_branches`, lines 22-161)

Modelled over a record of backend responses, again producing the outcome
together with the trace of git primitives.  The before/after snapshots are the
Python `set(...)` comprehensions at lines 62-66 and 119-123 (modelled as
deduplicated lists, compared by membership), and `deleted_branches` is
`sorted(before - after)` (line 126).
-/

/-- Lexicographic comparison of two character lists (Python string `<=`). -/
def strLe : Str → Str → Bool
  | [], _ => true
  | _ :: _, [] => false
  | a :: as, b :: bs => if a = b then strLe as bs else decide (a < b)

def insertStr (x : Str) : List Str → List Str
  | [] => [x]
  | y :: ys => if strLe x y then x :: y :: ys else y :: insertStr x ys

/-- Insertion sort by the lexicographic order (Python `sorted`). -/
def sortStr : List Str → List Str
  | [] => []
  | x :: xs => insertStr x (sortStr xs)

/-- The snapshot comprehension (lines 62-66 / 119-123):
`set(line.strip().split()[0].lstrip("*").strip() for line in out.strip().split("\n") if line.strip())`. -/
def branchSetOf (stdout : Str) : List Str :=
  (((splitOnNl (pyStrip stdout)).filter (fun l => !decide (pyStrip l = []))).map
    branch_name).dedup

/-- `sorted(branches_before - branches_after)` (line 126). -/
def setDiffSorted (before after : List Str) : List Str :=
  sortStr (before.filter (fun n => !decide (n ∈ after)))

/-- Git primitives invoked by `cleanup_branches`. -/
inductive GCmd
  | revParseGitDir
  | revParseHead
  | checkoutMain
  | branchVv
  | fetchPrune
  | deleteBranch (name : Str)
  | checkoutBranch (name : Str)
deriving DecidableEq

/-- Outcomes of `cleanup_branches`, one per return site; `finished` carries
`deleted_branches` and whether the script stayed on main because the original
branch was deleted. -/
inductive CleanupOutcome
  | notARepo
  | checkoutFailed
  | noData
  | finished (deleted : List Str) (stayedOnMain : Bool)
deriving DecidableEq

/-- Backend responses consumed by one run of `cleanup_branches`.  Individual
`git branch -D` exit codes are omitted: the source only prints a warning on a
failed deletion (lines 112-113) and never branches on it. -/
structure CleanupBackend where
  gitDirOk : Bool
  headName : Str
  checkoutMainCode : Nat
  branchVvBefore : Str
  fetchCode : Nat
  branchVvCleanup : Str
  branchVvAfter : Str
  checkoutBackCode : Nat

/-- Lines 58-158 of `cleanup_branches`, after the repository check and the
optional switch to main. -/
def cleanupCore (b : CleanupBackend) (force : Bool) (switched : Bool)
    (t : List GCmd) : CleanupOutcome × List GCmd :=
  let current_branch := pyStrip b.headName
  let branches_before := branchSetOf b.branchVvBefore
  let t1 := t ++ [GCmd.branchVv, GCmd.fetchPrune, GCmd.branchVv]
  if b.branchVvCleanup = [] then (.noData, t1)
  else
    let plan := branches_to_delete b.branchVvCleanup force
    let t2 := t1 ++ plan.map GCmd.deleteBranch ++ [GCmd.branchVv]
    let branches_after := branchSetOf b.branchVvAfter
    let deleted_branches := setDiffSorted branches_before branches_after
    if switched = true then
      if current_branch ∈ deleted_branches then (.finished deleted_branches true, t2)
      else (.finished deleted_branches false, t2 ++ [GCmd.checkoutBranch current_branch])
    else (.finished deleted_branches false, t2)

/-- `cleanup_branches` (lines 22-161). -/
def cleanup_branches (b : CleanupBackend) (force : Bool) : CleanupOutcome × List GCmd :=
  if b.gitDirOk = false then (.notARepo, [.revParseGitDir])
  else if pyStrip b.headName = "main".toList then
    cleanupCore b force false [GCmd.revParseGitDir, GCmd.revParseHead]
  else if b.checkoutMainCode ≠ 0 then
    (.checkoutFailed, [.revParseGitDir, .revParseHead, .checkoutMain])
  else
    cleanupCore b force true [GCmd.revParseGitDir, GCmd.revParseHead, GCmd.checkoutMain]

/-- C7: when the initial checkout of main fails, cleanup aborts: the outcome is
the checkout failure, the trace is exactly the three commands run so far, and
in particular no branch-deletion primitive is ever invoked (so the branch set
is untouched). -/
theorem C7_checkout_failure_aborts :
    ∀ (b : CleanupBackend) (force : Bool),
      b.gitDirOk = true → pyStrip b.headName ≠ "main".toList →
      b.checkoutMainCode ≠ 0 →
      (cleanup_branches b force).1 = CleanupOutcome.checkoutFailed ∧
      (cleanup_branches b force).2
          = [GCmd.revParseGitDir, GCmd.revParseHead, GCmd.checkoutMain] ∧
      ∀ n, GCmd.deleteBranch n ∉ (cleanup_branches b force).2 := by
  intro b force h1 h2 h3
  have hne : ¬ b.gitDirOk = false := by simp [h1]
  unfold cleanup_branches
  rw [if_neg hne, if_neg h2, if_pos h3]
  refine ⟨rfl, rfl, ?_⟩
  intro n hmem
  simp at hmem

/-- Witness for `C7_checkout_failure_aborts` on a concrete backend. -/
theorem C7_witness :
    (cleanup_branches ⟨true, "feat".toList, 1, [], 0, [], [], 0⟩ false).1
        = CleanupOutcome.checkoutFailed ∧
      (cleanup_branches ⟨true, "feat".toList, 1, [], 0, [], [], 0⟩ false).2
          = [GCmd.revParseGitDir, GCmd.revParseHead, GCmd.checkoutMain] ∧
      ∀ n, GCmd.deleteBranch n
          ∉ (cleanup_branches ⟨true, "feat".toList, 1, [], 0, [], [], 0⟩ false).2 :=
  C7_checkout_failure_aborts ⟨true, "feat".toList, 1, [], 0, [], [], 0⟩ false
    rfl (by decide) (by decide)

/-- C8: in a run that switched away from the original branch and whose original
branch ends up among `deleted_branches`, the outcome notes that the script
stays on main and no checkout of any branch other than main is ever invoked. -/
theorem C8_original_deleted_stays_on_main :
    ∀ (b : CleanupBackend) (force : Bool),
      b.gitDirOk = true → pyStrip b.headName ≠ "main".toList →
      b.checkoutMainCode = 0 → b.branchVvCleanup ≠ [] →
      pyStrip b.headName
          ∈ setDiffSorted (branchSetOf b.branchVvBefore) (branchSetOf b.branchVvAfter) →
      (cleanup_branches b force).1
          = CleanupOutcome.finished
              (setDiffSorted (branchSetOf b.branchVvBefore) (branchSetOf b.branchVvAfter))
              true ∧
      ∀ n, GCmd.checkoutBranch n ∉ (cleanup_branches b force).2 := by
  intro b force h1 h2 h3 h4 h5
  have hne : ¬ b.gitDirOk = false := by simp [h1]
  have hc : ¬ b.checkoutMainCode ≠ 0 := by simp [h3]
  simp only [cleanup_branches, cleanupCore]
  rw [if_neg hne, if_neg h2, if_neg hc, if_neg h4, if_pos trivial, if_pos h5]
  refine ⟨rfl, ?_⟩
  intro n hmem
  simp [List.mem_append] at hmem

/-- Witness for `C8_original_deleted_stays_on_main`: the original branch
feature-c disappears between the snapshots, the script reports staying on
main, and no switch-back checkout occurs. -/
theorem C8_witness :
    (cleanup_branches
        ⟨true, "feature-c".toList, 0, "* main\n  feature-c\n".toList, 0,
          "* main\n  feature-c\n".toList, "* main\n".toList, 0⟩ false).1
        = CleanupOutcome.finished
            (setDiffSorted (branchSetOf "* main\n  feature-c\n".toList)
              (branchSetOf "* main\n".toList)) true ∧
      ∀ n, GCmd.checkoutBranch n
          ∉ (cleanup_branches
              ⟨true, "feature-c".toList, 0, "* main\n  feature-c\n".toList, 0,
                "* main\n  feature-c\n".toList, "* main\n".toList, 0⟩ false).2 :=
  C8_original_deleted_stays_on_main
    ⟨true, "feature-c".toList, 0, "* main\n  feature-c\n".toList, 0,
      "* main\n  feature-c\n".toList, "* main\n".toList, 0⟩ false
    rfl (by decide) (by decide) (by decide) (by decide)

/-! ## The CLI dispatcher (`__main__`, lines 325-340) -/

/-- `switch_to_main` subcommand exit-code semantics: 0 on success, 1 on any
failure stage (the source returns these values, fed to `sys.exit`). -/
def stageExitCode : Stage → Nat
  | Stage.Success => 0
  | _ => 1

/-- The `__main__` dispatcher (lines 325-340).  Only the `switch_to_main`
subcommand feeds its result to `sys.exit`; the `cleanup` subcommand calls
`cleanup_branches` (which returns `None` on every path and swallows
`CalledProcessError`, lines 31-161), discards the result, and the process then
terminates normally with exit code 0. -/
def scriptExitCode (argv : List Str) (cb : CleanupBackend) (sb : SyncBackend) : Nat :=
  if argv.length > 1 then
    let fn := argv.getD 1 []
    if fn = "print_aliases".toList then 0
    else if fn = "cleanup".toList then
      let force := decide ("--force".toList ∈ argv) || decide ("-f".toList ∈ argv)
      let _ := cleanup_branches cb force
      0
    else if fn = "switch_to_main".toList then stageExitCode (switch_to_main sb).1
    else 0
  else 0

/-- C10: a `cleanup` invocation exits with code 0 no matter what the backend
did (not a repository, failed checkout, missing listing, failed deletions),
whereas a `switch_to_main` invocation exits with code 1 on any failure
stage. -/
theorem C10_cleanup_exit_always_zero :
    (∀ (argv : List Str) (cb : CleanupBackend) (sb : SyncBackend),
        argv.length > 1 → argv.getD 1 [] = "cleanup".toList →
        scriptExitCode argv cb sb = 0)
    ∧ (∀ (argv : List Str) (cb : CleanupBackend) (sb : SyncBackend),
        argv.length > 1 → argv.getD 1 [] = "switch_to_main".toList →
        (switch_to_main sb).1 ≠ Stage.Success →
        scriptExitCode argv cb sb = 1) := by
  constructor
  · intro argv cb sb h1 h2
    have hfn : ¬ argv.getD 1 [] = "print_aliases".toList := by
      rw [h2]; decide
    simp only [scriptExitCode]
    rw [if_pos h1, if_neg hfn, if_pos h2]
  · intro argv cb sb h1 h2 h3
    have hfn1 : ¬ argv.getD 1 [] = "print_aliases".toList := by
      rw [h2]; decide
    have hfn2 : ¬ argv.getD 1 [] = "cleanup".toList := by
      rw [h2]; decide
    simp only [scriptExitCode]
    rw [if_pos h1, if_neg hfn1, if_neg hfn2, if_pos h2]
    cases hst : (switch_to_main sb).1 <;> first
      | rfl
      | exact absurd hst h3

/-- Witness for `C10_cleanup_exit_always_zero`: a cleanup run outside any git
repository still exits 0, while switch_to_main outside a repository exits 1. -/
theorem C10_witness :
    scriptExitCode ["prog".toList, "cleanup".toList]
        ⟨false, [], 0, [], 0, [], [], 0⟩ ⟨1, [], 0, [], 0, 0, []⟩ = 0 ∧
      scriptExitCode ["prog".toList, "switch_to_main".toList]
        ⟨false, [], 0, [], 0, [], [], 0⟩ ⟨1, [], 0, [], 0, 0, []⟩ = 1 := by
  constructor
  · exact C10_cleanup_exit_always_zero.1 ["prog".toList, "cleanup".toList]
      ⟨false, [], 0, [], 0, [], [], 0⟩ ⟨1, [], 0, [], 0, 0, []⟩ (by decide) (by decide)
  · exact C10_cleanup_exit_always_zero.2 ["prog".toList, "switch_to_main".toList]
      ⟨false, [], 0, [], 0, [], [], 0⟩ ⟨1, [], 0, [], 0, 0, []⟩ (by decide) (by decide)
      (by decide)

/-! ## Additional string lemmas, towards the state-based repository model -/

theorem lstripBy_cons_neg {p : Char → Bool} {c : Char} (s : Str) (hc : p c = false) :
    lstripBy p (c :: s) = c :: s := by
  rw [lstripBy, if_neg (by simp [hc])]

theorem lstripBy_append (p : Char → Bool) (xs ys : Str) :
    lstripBy p (xs ++ ys)
      = if lstripBy p xs = [] then lstripBy p ys else lstripBy p xs ++ ys := by
  induction xs with
  | nil => simp [lstripBy]
  | cons c cs ih =>
    cases hc : p c with
    | true =>
      rw [List.cons_append, lstripBy, if_pos hc, ih, lstripBy, if_pos hc]
    | false =>
      rw [List.cons_append, lstripBy_cons_neg _ hc, lstripBy_cons_neg _ hc,
        if_neg (List.cons_ne_nil c cs), List.cons_append]

theorem length_lstripBy (p : Char → Bool) (s : Str) :
    (lstripBy p s).length ≤ s.length := by
  induction s with
  | nil => exact Nat.le_refl 0
  | cons c cs ih =>
    rw [lstripBy]
    by_cases hc : p c = true
    · rw [if_pos hc]
      exact Nat.le_succ_of_le ih
    · rw [if_neg hc]

theorem mem_of_mem_lstripBy {p : Char → Bool} {c : Char} {s : Str}
    (h : c ∈ lstripBy p s) : c ∈ s := by
  induction s with
  | nil => rw [lstripBy] at h; cases h
  | cons a as ih =>
    rw [lstripBy] at h
    by_cases ha : p a = true
    · rw [if_pos ha] at h
      exact List.mem_cons_of_mem a (ih h)
    · rw [if_neg ha] at h
      exact h

theorem rstripBy_append_of_ne_nil (p : Char → Bool) (xs ys : Str)
    (h : rstripBy p ys ≠ []) : rstripBy p (xs ++ ys) = xs ++ rstripBy p ys := by
  have hne : lstripBy p ys.reverse ≠ [] := by
    intro he
    exact h (by simp [rstripBy, he])
  unfold rstripBy
  rw [List.reverse_append, lstripBy_append, if_neg hne, List.reverse_append,
    List.reverse_reverse]

theorem rstripBy_append_singleton (p : Char → Bool) (xs : Str) {c : Char}
    (hc : p c = false) : rstripBy p (xs ++ [c]) = xs ++ [c] := by
  unfold rstripBy
  rw [List.reverse_append]
  simp only [List.reverse_cons, List.reverse_nil, List.nil_append,
    List.singleton_append]
  rw [lstripBy_cons_neg _ hc]
  simp

theorem rstripBy_fixed_decomp {p : Char → Bool} {s : Str}
    (h : rstripBy p s = s) (hne : s ≠ []) :
    ∃ ys c, s = ys ++ [c] ∧ p c = false := by
  rcases hr : s.reverse with _ | ⟨c, t⟩
  · exact absurd (by simpa using congrArg List.reverse hr) hne
  · have hs : s = t.reverse ++ [c] := by
      have := congrArg List.reverse hr
      simpa using this
    refine ⟨t.reverse, c, hs, ?_⟩
    by_contra hc
    have hc' : p c = true := by
      cases hpc : p c
      · exact absurd hpc hc
      · rfl
    have hlen : (rstripBy p s).length < s.length := by
      unfold rstripBy
      rw [hr, lstripBy, if_pos hc']
      calc (lstripBy p t).reverse.length
          = (lstripBy p t).length := by rw [List.length_reverse]
        _ ≤ t.length := length_lstripBy p t
        _ < t.length + 1 := Nat.lt_succ_self _
        _ = s.length := by
            have := congrArg List.length hs
            simp at this
            omega
    rw [h] at hlen
    exact Nat.lt_irrefl _ hlen

theorem lstripBy_eq_nil_of_all {p : Char → Bool} {s : Str}
    (h : ∀ c ∈ s, p c = true) : lstripBy p s = [] := by
  induction s with
  | nil => rfl
  | cons c cs ih =>
    rw [lstripBy, if_pos (h c (List.mem_cons_self c cs))]
    exact ih fun x hx => h x (List.mem_cons_of_mem c hx)

/-- Join lines with newline separators: Python `"\n".join(...)`, the inverse
direction of `split("\n")`. -/
def joinNl : List Str → Str
  | [] => []
  | [s] => s
  | s :: s2 :: rest => s ++ '\n' :: joinNl (s2 :: rest)

theorem joinNl_ne_nil {ls : List Str} (h1 : ls ≠ []) (h2 : ∀ x ∈ ls, x ≠ []) :
    joinNl ls ≠ [] := by
  match ls with
  | [] => exact absurd rfl h1
  | [s] => exact h2 s (by simp)
  | s :: s2 :: rest =>
    rw [joinNl]
    exact fun he => h2 s (by simp) (List.append_eq_nil.mp he).1

theorem splitOnNl_no_newline {xs : Str} (h : ('\n' : Char) ∉ xs) :
    splitOnNl xs = [xs] := by
  induction xs with
  | nil => rfl
  | cons c cs ih =>
    have hc : ¬ c = '\n' := by
      rintro rfl
      exact h (List.mem_cons_self _ _)
    rw [splitOnNl, if_neg hc, ih fun hm => h (List.mem_cons_of_mem _ hm)]

theorem splitOnNl_append {xs ys : Str} (h : ('\n' : Char) ∉ xs) :
    splitOnNl (xs ++ '\n' :: ys) = xs :: splitOnNl ys := by
  induction xs with
  | nil => simp [splitOnNl]
  | cons c cs ih =>
    have hc : ¬ c = '\n' := by
      rintro rfl
      exact h (List.mem_cons_self _ _)
    rw [List.cons_append, splitOnNl, if_neg hc,
      ih fun hm => h (List.mem_cons_of_mem _ hm)]

theorem splitOnNl_joinNl : ∀ (ls : List Str), ls ≠ [] →
    (∀ x ∈ ls, ('\n' : Char) ∉ x) → splitOnNl (joinNl ls) = ls
  | [], h, _ => absurd rfl h
  | [s], _, h2 => by
    rw [joinNl]
    exact splitOnNl_no_newline (h2 s (by simp))
  | s :: s2 :: rest, _, h2 => by
    rw [joinNl, splitOnNl_append (h2 s (by simp)),
      splitOnNl_joinNl (s2 :: rest) (List.cons_ne_nil _ _)
        fun x hx => h2 x (List.mem_cons_of_mem _ hx)]

theorem rstripBy_joinNl : ∀ (ls : List Str), (∀ x ∈ ls, x ≠ []) →
    (∀ x ∈ ls, rstripBy isSpace x = x) →
    rstripBy isSpace (joinNl ls) = joinNl ls
  | [], _, _ => rfl
  | [s], _, h2 => h2 s (by simp)
  | s :: s2 :: rest, h1, h2 => by
    have hrec : rstripBy isSpace (joinNl (s2 :: rest)) = joinNl (s2 :: rest) :=
      rstripBy_joinNl (s2 :: rest) (fun x hx => h1 x (List.mem_cons_of_mem _ hx))
        (fun x hx => h2 x (List.mem_cons_of_mem _ hx))
    have hne : joinNl (s2 :: rest) ≠ [] :=
      joinNl_ne_nil (List.cons_ne_nil _ _)
        fun x hx => h1 x (List.mem_cons_of_mem _ hx)
    rw [joinNl]
    have he : s ++ '\n' :: joinNl (s2 :: rest)
        = (s ++ ['\n']) ++ joinNl (s2 :: rest) := by simp
    rw [he, rstripBy_append_of_ne_nil _ _ _ (by rw [hrec]; exact hne), hrec]

theorem lstripBy_joinNl_cons (l : Str) (rest : List Str)
    (h : lstripBy isSpace l ≠ []) :
    lstripBy isSpace (joinNl (l :: rest))
      = joinNl (lstripBy isSpace l :: rest) := by
  cases rest with
  | nil => rw [joinNl, joinNl]
  | cons s2 r =>
    rw [joinNl, joinNl, lstripBy_append, if_neg h]

theorem strip_split_joinNl (l : Str) (rest : List Str)
    (h1 : ∀ x ∈ l :: rest, x ≠ [])
    (h2 : ∀ x ∈ l :: rest, rstripBy isSpace x = x)
    (h3 : ∀ x ∈ l :: rest, ('\n' : Char) ∉ x) :
    splitOnNl (pyStrip (joinNl (l :: rest))) = lstripBy isSpace l :: rest := by
  obtain ⟨ys, c, hdecomp, hc⟩ :=
    rstripBy_fixed_decomp (h2 l (by simp)) (h1 l (by simp))
  have hl1 : lstripBy isSpace l = lstripBy isSpace ys ++ [c]
      ∨ lstripBy isSpace l = [c] := by
    rw [hdecomp, lstripBy_append]
    by_cases hys : lstripBy isSpace ys = []
    · rw [if_pos hys, lstripBy_cons_neg _ hc]
      exact Or.inr rfl
    · rw [if_neg hys]
      exact Or.inl rfl
  have hlne : lstripBy isSpace l ≠ [] := by
    rcases hl1 with he | he <;> rw [he] <;> simp
  have hlfix : rstripBy isSpace (lstripBy isSpace l) = lstripBy isSpace l := by
    rcases hl1 with he | he <;> rw [he]
    · exact rstripBy_append_singleton _ _ hc
    · have := rstripBy_append_singleton isSpace [] hc
      simpa using this
  unfold pyStrip
  rw [lstripBy_joinNl_cons l rest hlne]
  rw [rstripBy_joinNl (lstripBy isSpace l :: rest)
      (by
        intro x hx
        rcases List.mem_cons.mp hx with rfl | hx'
        · exact hlne
        · exact h1 x (List.mem_cons_of_mem _ hx'))
      (by
        intro x hx
        rcases List.mem_cons.mp hx with rfl | hx'
        · exact hlfix
        · exact h2 x (List.mem_cons_of_mem _ hx'))]
  exact splitOnNl_joinNl _ (List.cons_ne_nil _ _)
    (by
      intro x hx
      rcases List.mem_cons.mp hx with rfl | hx'
      · exact fun hm => h3 l (by simp) (mem_of_mem_lstripBy hm)
      · exact h3 x (List.mem_cons_of_mem _ hx'))

theorem splitWsAux_word (w : Str) (hw : ∀ c ∈ w, isSpace c = false) :
    ∀ (cur : Str) (s : Str), splitWsAux cur (w ++ s) = splitWsAux (w.reverse ++ cur) s := by
  induction w with
  | nil =>
    intro cur s
    simp
  | cons a as ih =>
    intro cur s
    have ha : isSpace a = false := hw a (by simp)
    rw [List.cons_append, splitWsAux, if_neg (by simp [ha]),
      ih (fun c hc => hw c (List.mem_cons_of_mem _ hc)) (a :: cur) s]
    have : (a :: as).reverse ++ cur = as.reverse ++ (a :: cur) := by simp
    rw [this]

theorem pySplit_word (w : Str) (hw : ∀ c ∈ w, isSpace c = false) (hne : w ≠ []) :
    pySplit w = [w] := by
  have h0 := splitWsAux_word w hw [] []
  simp only [List.append_nil] at h0
  unfold pySplit
  rw [h0, splitWsAux, if_neg (by simpa using hne)]
  simp

theorem pySplit_word_space (w : Str) (s : Str)
    (hw : ∀ c ∈ w, isSpace c = false) (hne : w ≠ []) :
    pySplit (w ++ ' ' :: s) = w :: pySplit s := by
  unfold pySplit
  rw [splitWsAux_word w hw [] (' ' :: s), List.append_nil, splitWsAux,
    if_pos (show isSpace ' ' = true by rfl),
    if_neg (by simpa using hne)]
  simp

theorem isPrefixOfB_self_append (p t : Str) : isPrefixOfB p (p ++ t) = true := by
  induction p with
  | nil => rfl
  | cons a as ih =>
    rw [List.cons_append, isPrefixOfB]
    simp [ih]

theorem containsSub_cons_of {pat : Str} {c : Char} {s : Str}
    (h : containsSub pat s = true) : containsSub pat (c :: s) = true := by
  rw [containsSub, Bool.or_eq_true]
  exact Or.inr h

theorem containsSub_append_left : ∀ (xs : Str) {pat s : Str},
    containsSub pat s = true → containsSub pat (xs ++ s) = true
  | [], _, _, h => h
  | x :: xs, pat, s, h => by
    rw [List.cons_append]
    exact containsSub_cons_of (containsSub_append_left xs h)

theorem containsSub_self_append {pat t : Str} : containsSub pat (pat ++ t) = true := by
  cases pat with
  | nil =>
    cases t with
    | nil => rfl
    | cons c cs => simp [containsSub, isPrefixOfB]
  | cons a as =>
    rw [List.cons_append, containsSub, Bool.or_eq_true]
    refine Or.inl ?_
    rw [← List.cons_append]
    exact isPrefixOfB_self_append _ _

theorem containsSub_of_parts {pat : Str} (xs ys : Str) :
    containsSub pat (xs ++ pat ++ ys) = true := by
  rw [List.append_assoc]
  exact containsSub_append_left xs containsSub_self_append

theorem exists_concat_of_ne_nil {s : Str} (h : s ≠ []) : ∃ ys c, s = ys ++ [c] := by
  rcases hr : s.reverse with _ | ⟨c, t⟩
  · exact absurd (by simpa using congrArg List.reverse hr) h
  · exact ⟨t.reverse, c, by simpa using congrArg List.reverse hr⟩

/-! ## State-based repository model (for claim C9)

A repository state is a list of branch records plus the current branch name;
`git branch -vv` output is rendered from it line by line, and the delete /
checkout primitives act on it.  `git fetch -p` is a no-op here, matching the
claim's hypothesis of no intervening branch changes and a deterministic
backend. -/

structure Branch where
  name : Str
  hasRemote : Bool
  gone : Bool
deriving DecidableEq

structure Repo where
  branches : List Branch
  current : Str
deriving DecidableEq

/-- Git ref names contain no whitespace and none of `*`, `[`, `:` (git forbids
them), so a rendered listing line can be parsed back unambiguously. -/
def goodName (n : Str) : Bool :=
  !decide (n = []) && n.all fun c =>
    !isSpace c && !decide (c = '*') && !decide (c = '[') && !decide (c = ':')

def wfRepo (r : Repo) : Prop :=
  (r.branches.map Branch.name).Nodup ∧
  (∀ br ∈ r.branches, goodName br.name = true) ∧
  r.current ∈ r.branches.map Branch.name

/-- The tracking part of a `git branch -vv` line: absent, `[origin/name]`, or
`[origin/name: gone]`. -/
def trackPart (br : Branch) : Str :=
  if br.hasRemote then
    " [origin/".toList ++ br.name ++ (if br.gone then ": gone]".toList else "]".toList)
  else []

/-- A listing line without its leading marker. -/
def lineBody (br : Branch) : Str := br.name ++ trackPart br

/-- A full `git branch -vv` line: `* ` marks the current branch, two spaces
otherwise. -/
def renderBranch (cur : Str) (br : Branch) : Str :=
  (if br.name = cur then "* ".toList else "  ".toList) ++ lineBody br

def renderListing (r : Repo) : Str :=
  joinNl (r.branches.map (renderBranch r.current))

theorem goodName_spec {n : Str} (h : goodName n = true) :
    n ≠ [] ∧ ∀ c ∈ n, isSpace c = false ∧ c ≠ '*' ∧ c ≠ '[' ∧ c ≠ ':' := by
  unfold goodName at h
  rw [Bool.and_eq_true] at h
  obtain ⟨h1, h2⟩ := h
  constructor
  · intro he
    simp [he] at h1
  · intro c hc
    have h3 := List.all_eq_true.mp h2 c hc
    simp only [Bool.and_eq_true, Bool.not_eq_true', decide_eq_false_iff_not] at h3
    exact ⟨h3.1.1.1, h3.1.1.2, h3.1.2, h3.2⟩

theorem lineBody_ne_nil {br : Branch} (hg : goodName br.name = true) :
    lineBody br ≠ [] := by
  intro he
  exact (goodName_spec hg).1 (List.append_eq_nil.mp he).1

theorem mem_lineBody {br : Branch} {c : Char} (hc : c ∈ lineBody br) :
    c ∈ br.name
      ∨ (br.hasRemote = true
          ∧ (c ∈ " [origin/]".toList ∨ (br.gone = true ∧ c ∈ ": gone]".toList))) := by
  unfold lineBody trackPart at hc
  rcases List.mem_append.mp hc with h | h
  · exact Or.inl h
  · cases hr : br.hasRemote
    · rw [hr] at h
      simp at h
    · rw [hr] at h
      simp only [if_true] at h
      rcases List.mem_append.mp h with h' | h'
      · rcases List.mem_append.mp h' with h'' | h''
        · refine Or.inr ⟨rfl, Or.inl ?_⟩
          have e : " [origin/]".toList = " [origin/".toList ++ [']'] := by decide
          rw [e]
          exact List.mem_append_left _ h''
        · exact Or.inl h''
      · cases hgo : br.gone
        · rw [hgo, if_neg Bool.false_ne_true] at h'
          refine Or.inr ⟨rfl, Or.inl ?_⟩
          have hcq : c = ']' := by
            have e : ("]" : String).toList = [']'] := by decide
            rw [e] at h'
            simpa using h'
          rw [hcq]
          decide
        · rw [hgo] at h'
          simp only [if_pos rfl] at h'
          exact Or.inr ⟨rfl, Or.inr ⟨rfl, h'⟩⟩

/-! ## Parsing facts for rendered listing lines -/

theorem has_no_remote_line {br : Branch} {pad : Str}
    (hg : goodName br.name = true) (hpad : ∀ x ∈ pad, x = ' ') :
    has_no_remote (pad ++ lineBody br) = !br.hasRemote := by
  cases hr : br.hasRemote
  · unfold has_no_remote
    suffices h : containsSub "[origin/".toList (pad ++ lineBody br) = false by
      rw [h]
    cases hcs : containsSub "[origin/".toList (pad ++ lineBody br)
    · rfl
    · exfalso
      have hmem : ('[' : Char) ∈ pad ++ lineBody br := by
        have e : ("[origin/" : String).toList = '[' :: "origin/".toList := by decide
        rw [e] at hcs
        exact containsSub_head_mem hcs
      rcases List.mem_append.mp hmem with hm | hm
      · exact absurd (hpad _ hm) (by decide)
      · rcases mem_lineBody hm with hm' | ⟨hm', -⟩
        · exact ((goodName_spec hg).2 _ hm').2.2.1 rfl
        · rw [hr] at hm'; cases hm'
  · unfold has_no_remote
    suffices h : containsSub "[origin/".toList (pad ++ lineBody br) = true by
      rw [h]
    have e : pad ++ lineBody br
        = (pad ++ br.name ++ [' ']) ++ "[origin/".toList
            ++ (br.name ++ (if br.gone then ": gone]".toList else "]".toList)) := by
      unfold lineBody trackPart
      rw [hr, if_pos rfl]
      have e2 : (" [origin/" : String).toList = ' ' :: "[origin/".toList := by decide
      rw [e2]
      simp
    rw [e]
    exact containsSub_of_parts _ _

theorem remote_is_gone_line {br : Branch} {pad : Str}
    (hg : goodName br.name = true) (hpad : ∀ x ∈ pad, x = ' ') :
    remote_is_gone (pad ++ lineBody br) = (br.hasRemote && br.gone) := by
  by_cases hb : br.hasRemote = true ∧ br.gone = true
  · obtain ⟨hr, hgo⟩ := hb
    unfold remote_is_gone
    rw [hr, hgo]
    suffices h : containsSub ": gone]".toList (pad ++ lineBody br) = true by
      rw [h]; rfl
    have e : pad ++ lineBody br
        = (pad ++ br.name ++ " [origin/".toList ++ br.name)
            ++ ": gone]".toList ++ [] := by
      unfold lineBody trackPart
      rw [hr, if_pos rfl, hgo, if_pos rfl]
      simp
    rw [e]
    exact containsSub_of_parts _ _
  · have hb' : (br.hasRemote && br.gone) = false := by
      cases hr : br.hasRemote
      · rfl
      · cases hgo : br.gone
        · rfl
        · exact absurd ⟨hr, hgo⟩ hb
    unfold remote_is_gone
    rw [hb']
    cases hcs : containsSub ": gone]".toList (pad ++ lineBody br)
    · rfl
    · exfalso
      have hmem : (':' : Char) ∈ pad ++ lineBody br := by
        have e : (": gone]" : String).toList = ':' :: " gone]".toList := by decide
        rw [e] at hcs
        exact containsSub_head_mem hcs
      rcases List.mem_append.mp hmem with hm | hm
      · exact absurd (hpad _ hm) (by decide)
      · rcases mem_lineBody hm with hm' | ⟨hm', hm''⟩
        · exact ((goodName_spec hg).2 _ hm').2.2.2 rfl
        · rcases hm'' with hm'' | ⟨hgo, hm''⟩
          · revert hm''; decide
          · exact hb ⟨hm', hgo⟩

theorem rstrip_lineBody {br : Branch} (hg : goodName br.name = true) :
    rstripBy isSpace (lineBody br) = lineBody br := by
  unfold lineBody trackPart
  cases hr : br.hasRemote
  · rw [if_neg Bool.false_ne_true, List.append_nil]
    obtain ⟨hne, hall⟩ := goodName_spec hg
    obtain ⟨ys, c, hdec⟩ := exists_concat_of_ne_nil hne
    rw [hdec]
    exact rstripBy_append_singleton _ _ ((hall c (by rw [hdec]; simp)).1)
  · rw [if_pos rfl]
    cases hgo : br.gone
    · rw [if_neg Bool.false_ne_true]
      have e : ("]" : String).toList = [']'] := by decide
      rw [e, show br.name ++ (" [origin/".toList ++ br.name ++ [']'])
          = (br.name ++ (" [origin/".toList ++ br.name)) ++ [']'] by simp]
      exact rstripBy_append_singleton _ _ (by decide)
    · rw [if_pos rfl]
      have e : (": gone]" : String).toList = ": gone".toList ++ [']'] := by decide
      rw [e, show br.name ++ (" [origin/".toList ++ br.name ++ (": gone".toList ++ [']']))
          = (br.name ++ (" [origin/".toList ++ br.name ++ ": gone".toList)) ++ [']'] by simp]
      exact rstripBy_append_singleton _ _ (by decide)

theorem lstrip_lineBody {br : Branch} (hg : goodName br.name = true) :
    lstripBy isSpace (lineBody br) = lineBody br := by
  obtain ⟨hne, hall⟩ := goodName_spec hg
  unfold lineBody
  cases hn : br.name with
  | nil => exact absurd hn hne
  | cons c cs =>
    rw [List.cons_append]
    exact lstripBy_cons_neg _ ((hall c (by rw [hn]; simp)).1)

theorem pyStrip_pad_lineBody {br : Branch} {pad : Str}
    (hg : goodName br.name = true) (hpadsp : ∀ x ∈ pad, isSpace x = true) :
    pyStrip (pad ++ lineBody br) = lineBody br := by
  unfold pyStrip
  rw [lstripBy_append, lstripBy_eq_nil_of_all hpadsp, if_pos rfl,
    lstrip_lineBody hg, rstrip_lineBody hg]

theorem pyStrip_star_line {br : Branch} (hg : goodName br.name = true) :
    pyStrip ("* ".toList ++ lineBody br) = "* ".toList ++ lineBody br := by
  unfold pyStrip
  have h1 : lstripBy isSpace ("* ".toList ++ lineBody br)
      = "* ".toList ++ lineBody br := by
    rw [show ("* ".toList ++ lineBody br) = '*' :: (' ' :: lineBody br) from rfl]
    exact lstripBy_cons_neg _ (by decide)
  rw [h1, rstripBy_append_of_ne_nil _ _ _
      (by rw [rstrip_lineBody hg]; exact lineBody_ne_nil hg),
    rstrip_lineBody hg]

theorem pySplit_lineBody {br : Branch} (hg : goodName br.name = true) :
    ∃ rest, pySplit (lineBody br) = br.name :: rest := by
  obtain ⟨hne, hall⟩ := goodName_spec hg
  have hw : ∀ c ∈ br.name, isSpace c = false := fun c hc => (hall c hc).1
  unfold lineBody trackPart
  cases hr : br.hasRemote
  · rw [if_neg Bool.false_ne_true, List.append_nil, pySplit_word _ hw hne]
    exact ⟨[], rfl⟩
  · rw [if_pos rfl]
    have e : " [origin/".toList ++ br.name
          ++ (if br.gone then ": gone]".toList else "]".toList)
        = ' ' :: ("[origin/".toList ++ br.name
          ++ (if br.gone then ": gone]".toList else "]".toList)) := by
      have e2 : (" [origin/" : String).toList = ' ' :: "[origin/".toList := by decide
      rw [e2]
      simp
    rw [e, pySplit_word_space _ _ hw hne]
    exact ⟨_, rfl⟩

theorem pyStrip_goodName {n : Str} (hg : goodName n = true) : pyStrip n = n := by
  obtain ⟨hne, hall⟩ := goodName_spec hg
  unfold pyStrip
  have h1 : lstripBy isSpace n = n := by
    cases hn : n with
    | nil => exact absurd hn hne
    | cons c cs => exact lstripBy_cons_neg _ ((hall c (by rw [hn]; simp)).1)
  rw [h1]
  obtain ⟨ys, c, hdec⟩ := exists_concat_of_ne_nil hne
  rw [hdec]
  exact rstripBy_append_singleton _ _ ((hall c (by rw [hdec]; simp)).1)

theorem lstripStars_goodName {n : Str} (hg : goodName n = true) :
    lstripStars n = n := by
  obtain ⟨hne, hall⟩ := goodName_spec hg
  cases hn : n with
  | nil => exact absurd hn hne
  | cons c cs =>
    unfold lstripStars
    refine lstripBy_cons_neg _ ?_
    have := (hall c (by rw [hn]; simp)).2.1
    simp [this]

theorem branch_name_pad_lineBody {br : Branch} {pad : Str}
    (hg : goodName br.name = true) (hpadsp : ∀ x ∈ pad, isSpace x = true) :
    branch_name (pad ++ lineBody br) = br.name := by
  unfold branch_name
  rw [pyStrip_pad_lineBody hg hpadsp]
  obtain ⟨rest, hsp⟩ := pySplit_lineBody hg
  rw [hsp, List.headD_cons, lstripStars_goodName hg, pyStrip_goodName hg]

theorem branch_name_star_line {br : Branch} (hg : goodName br.name = true) :
    branch_name ("* ".toList ++ lineBody br) = [] := by
  unfold branch_name
  rw [pyStrip_star_line hg,
    show ("* ".toList ++ lineBody br) = ['*'] ++ (' ' :: lineBody br) from rfl,
    pySplit_word_space ['*'] (lineBody br) (by decide) (by decide),
    List.headD_cons]
  decide

theorem startsWithStar_pad_lineBody {br : Branch} {pad : Str}
    (hg : goodName br.name = true) (hpad : ∀ x ∈ pad, x = ' ') :
    startsWithStar (pad ++ lineBody br) = false := by
  cases pad with
  | nil =>
    obtain ⟨hne, hall⟩ := goodName_spec hg
    rw [List.nil_append]
    unfold lineBody
    cases hn : br.name with
    | nil => exact absurd hn hne
    | cons c cs =>
      rw [List.cons_append]
      have hc := (hall c (by rw [hn]; simp)).2.1
      simp [startsWithStar, hc]
  | cons x xs =>
    rw [List.cons_append]
    have hx : x = ' ' := hpad x (by simp)
    simp [startsWithStar, hx]

theorem line_selected_star (force : Bool) (s : Str) (h : startsWithStar s = true) :
    line_selected force s = false := by
  unfold line_selected
  by_cases h1 : pyStrip s = []
  · rw [if_pos h1]
  · rw [if_neg h1, if_pos h]

/-- The classification outcome for a branch record: delete when it has no
remote, or when its remote is gone and force is set. -/
def selFlag (force : Bool) (br : Branch) : Bool :=
  !br.hasRemote || (br.gone && force)

theorem line_selected_pad_lineBody {br : Branch} {pad : Str} (force : Bool)
    (hg : goodName br.name = true) (hpad : ∀ x ∈ pad, x = ' ') :
    line_selected force (pad ++ lineBody br) = selFlag force br := by
  have hpadsp : ∀ x ∈ pad, isSpace x = true := by
    intro x hx
    rw [hpad x hx]
    rfl
  have hps : pyStrip (pad ++ lineBody br) = lineBody br :=
    pyStrip_pad_lineBody hg hpadsp
  obtain ⟨rest, hsp⟩ := pySplit_lineBody hg
  have hstar := startsWithStar_pad_lineBody hg hpad
  have hnr := has_no_remote_line hg hpad
  have hgo := remote_is_gone_line hg hpad
  unfold selFlag
  cases hr : br.hasRemote
  · -- no remote-tracking mark: selected regardless of force
    rw [hr] at hnr
    apply line_selected_iff.mpr
    refine ⟨by rw [hps]; exact lineBody_ne_nil hg, hstar,
      by rw [hps, hsp]; exact List.cons_ne_nil _ _, Or.inl (by rw [hnr]; rfl)⟩
  · rw [hr] at hnr hgo
    rw [Bool.true_and] at hgo
    cases hgf : (br.gone && force)
    · -- not selected
      cases hsel : line_selected force (pad ++ lineBody br)
      · rfl
      · exfalso
        rcases (line_selected_iff.mp hsel) with ⟨-, -, -, hd⟩
        rcases hd with hd | ⟨hd, hf⟩
        · rw [hnr] at hd
          cases hd
        · rw [hgo] at hd
          rw [hd, hf] at hgf
          cases hgf
    · rw [Bool.and_eq_true] at hgf
      apply line_selected_iff.mpr
      refine ⟨by rw [hps]; exact lineBody_ne_nil hg, hstar,
        by rw [hps, hsp]; exact List.cons_ne_nil _ _,
        Or.inr ⟨by rw [hgo]; exact hgf.1, hgf.2⟩⟩

theorem renderBranch_ne_nil (cur : Str) (br : Branch) : renderBranch cur br ≠ [] := by
  unfold renderBranch
  by_cases h : br.name = cur
  · rw [if_pos h]
    simp
  · rw [if_neg h]
    simp

theorem newline_not_mem_renderBranch {cur : Str} {br : Branch}
    (hg : goodName br.name = true) : ('\n' : Char) ∉ renderBranch cur br := by
  unfold renderBranch
  intro hmem
  rcases List.mem_append.mp hmem with h | h
  · revert h
    split <;> decide
  · rcases mem_lineBody h with h' | ⟨-, h' | ⟨-, h'⟩⟩
    · exact absurd ((goodName_spec hg).2 _ h').1 (by decide)
    · revert h'; decide
    · revert h'; decide

theorem rstrip_renderBranch {cur : Str} {br : Branch}
    (hg : goodName br.name = true) :
    rstripBy isSpace (renderBranch cur br) = renderBranch cur br := by
  unfold renderBranch
  rw [rstripBy_append_of_ne_nil _ _ _
      (by rw [rstrip_lineBody hg]; exact lineBody_ne_nil hg),
    rstrip_lineBody hg]

theorem lstrip_renderBranch {cur : Str} {br : Branch}
    (hg : goodName br.name = true) :
    lstripBy isSpace (renderBranch cur br)
      = if br.name = cur then renderBranch cur br else lineBody br := by
  unfold renderBranch
  by_cases h : br.name = cur
  · simp only [if_pos h]
    rw [show ("* ".toList ++ lineBody br) = '*' :: (' ' :: lineBody br) from rfl]
    exact lstripBy_cons_neg _ (by decide)
  · simp only [if_neg h]
    rw [lstripBy_append, lstripBy_eq_nil_of_all (by decide), if_pos rfl,
      lstrip_lineBody hg]

theorem selName_renderBranch (cur : Str) {br : Branch} (force : Bool)
    (hg : goodName br.name = true) :
    (if line_selected force (renderBranch cur br) = true
        then some (branch_name (renderBranch cur br)) else none)
      = (if (decide (br.name ≠ cur) && selFlag force br) = true
          then some br.name else none) := by
  by_cases h : br.name = cur
  · have hstar : startsWithStar (renderBranch cur br) = true := by
      unfold renderBranch
      rw [if_pos h]
      rfl
    rw [line_selected_star force _ hstar]
    simp [h]
  · have he : renderBranch cur br = "  ".toList ++ lineBody br := by
      unfold renderBranch
      rw [if_neg h]
    rw [he, line_selected_pad_lineBody force hg (by decide),
      branch_name_pad_lineBody hg (by decide)]
    simp [h]

theorem selName_processed_head (cur : Str) {br : Branch} (force : Bool)
    (hg : goodName br.name = true) :
    (if line_selected force (lstripBy isSpace (renderBranch cur br)) = true
        then some (branch_name (lstripBy isSpace (renderBranch cur br))) else none)
      = (if (decide (br.name ≠ cur) && selFlag force br) = true
          then some br.name else none) := by
  rw [lstrip_renderBranch hg]
  by_cases h : br.name = cur
  · rw [if_pos h]
    exact selName_renderBranch cur force hg
  · rw [if_neg h,
      show lineBody br = ([] : Str) ++ lineBody br from (List.nil_append _).symm,
      line_selected_pad_lineBody force hg (by simp),
      branch_name_pad_lineBody hg (by simp)]
    simp [h]

/-! ## Listing-level facts: parsing a rendered listing -/

theorem splitOnNl_render (q : Repo) (b0 : Branch) (rest : List Branch)
    (hbs : q.branches = b0 :: rest)
    (hall : ∀ br ∈ q.branches, goodName br.name = true) :
    splitOnNl (pyStrip (renderListing q))
      = lstripBy isSpace (renderBranch q.current b0)
          :: rest.map (renderBranch q.current) := by
  have hmem : ∀ x ∈ renderBranch q.current b0 :: rest.map (renderBranch q.current),
      ∃ br ∈ q.branches, x = renderBranch q.current br := by
    intro x hx
    rcases List.mem_cons.mp hx with rfl | hx'
    · exact ⟨b0, by rw [hbs]; simp, rfl⟩
    · obtain ⟨br, hbr, rfl⟩ := List.mem_map.mp hx'
      exact ⟨br, by rw [hbs]; exact List.mem_cons_of_mem _ hbr, rfl⟩
  unfold renderListing
  rw [hbs, List.map_cons]
  apply strip_split_joinNl
  · intro x hx
    obtain ⟨br, -, rfl⟩ := hmem x hx
    exact renderBranch_ne_nil _ _
  · intro x hx
    obtain ⟨br, hbr, rfl⟩ := hmem x hx
    exact rstrip_renderBranch (hall br hbr)
  · intro x hx
    obtain ⟨br, hbr, rfl⟩ := hmem x hx
    exact newline_not_mem_renderBranch (hall br hbr)

theorem filterMap_selName_map (cur : Str) (force : Bool) :
    ∀ (bs : List Branch), (∀ br ∈ bs, goodName br.name = true) →
      (bs.map (renderBranch cur)).filterMap
          (fun l => if line_selected force l = true then some (branch_name l) else none)
        = (bs.filter (fun br => decide (br.name ≠ cur) && selFlag force br)).map Branch.name
  | [], _ => rfl
  | br :: bs, hall => by
    have hsel := selName_renderBranch cur force (hall br (by simp))
    have ih := filterMap_selName_map cur force bs
      fun x hx => hall x (List.mem_cons_of_mem _ hx)
    by_cases h : (decide (br.name ≠ cur) && selFlag force br) = true
    · rw [if_pos h] at hsel
      rw [List.map_cons,
        List.filterMap_cons_some
          (f := fun l => if line_selected force l = true
            then some (branch_name l) else none) hsel,
        List.filter_cons_of_pos
          (p := fun br => decide (br.name ≠ cur) && selFlag force br) h,
        List.map_cons, ih]
    · rw [if_neg h] at hsel
      rw [List.map_cons,
        List.filterMap_cons_none
          (f := fun l => if line_selected force l = true
            then some (branch_name l) else none) hsel,
        List.filter_cons_of_neg
          (p := fun br => decide (br.name ≠ cur) && selFlag force br) h, ih]

/-- Classifying a rendered listing selects exactly the non-current branches
whose record satisfies the deletion rule. -/
theorem branches_to_delete_render (q : Repo) (force : Bool) (hwf : wfRepo q) :
    branches_to_delete (renderListing q) force
      = (q.branches.filter
          (fun br => decide (br.name ≠ q.current) && selFlag force br)).map Branch.name := by
  obtain ⟨hnodup, hall, hcur⟩ := hwf
  cases hbs : q.branches with
  | nil =>
    rw [hbs] at hcur
    simp at hcur
  | cons b0 rest =>
    rw [branches_to_delete_eq, splitOnNl_render q b0 rest hbs hall]
    have hhead := selName_processed_head q.current force
      (hall b0 (by rw [hbs]; simp))
    have hrest := filterMap_selName_map q.current force rest
      fun x hx => hall x (by rw [hbs]; exact List.mem_cons_of_mem _ hx)
    by_cases h : (decide (b0.name ≠ q.current) && selFlag force b0) = true
    · rw [if_pos h] at hhead
      rw [List.filterMap_cons_some
          (f := fun l => if line_selected force l = true
            then some (branch_name l) else none) hhead,
        List.filter_cons_of_pos
          (p := fun br => decide (br.name ≠ q.current) && selFlag force br) h,
        List.map_cons, hrest]
    · rw [if_neg h] at hhead
      rw [List.filterMap_cons_none
          (f := fun l => if line_selected force l = true
            then some (branch_name l) else none) hhead,
        List.filter_cons_of_neg
          (p := fun br => decide (br.name ≠ q.current) && selFlag force br) h, hrest]

/-- Extracted snapshot entry of a listing line: the empty name for the current
branch (its first token is the bare `*`), the branch name otherwise. -/
def exEntry (cur : Str) (br : Branch) : Str :=
  if br.name = cur then [] else br.name

theorem filterEntry_renderBranch (cur : Str) {br : Branch}
    (hg : goodName br.name = true) :
    (!decide (pyStrip (renderBranch cur br) = [])) = true
    ∧ branch_name (renderBranch cur br) = exEntry cur br := by
  unfold renderBranch exEntry
  by_cases h : br.name = cur
  · rw [if_pos h, if_pos h]
    constructor
    · rw [pyStrip_star_line hg]
      simp
    · exact branch_name_star_line hg
  · rw [if_neg h, if_neg h]
    constructor
    · rw [pyStrip_pad_lineBody hg (by decide)]
      simp [lineBody_ne_nil hg]
    · exact branch_name_pad_lineBody hg (by decide)

theorem filterEntry_processed_head (cur : Str) {br : Branch}
    (hg : goodName br.name = true) :
    (!decide (pyStrip (lstripBy isSpace (renderBranch cur br)) = [])) = true
    ∧ branch_name (lstripBy isSpace (renderBranch cur br)) = exEntry cur br := by
  rw [lstrip_renderBranch hg]
  by_cases h : br.name = cur
  · rw [if_pos h]
    exact filterEntry_renderBranch cur hg
  · rw [if_neg h,
      show lineBody br = ([] : Str) ++ lineBody br from (List.nil_append _).symm]
    constructor
    · rw [pyStrip_pad_lineBody hg (by simp)]
      simp [lineBody_ne_nil hg]
    · rw [branch_name_pad_lineBody hg (by simp)]
      unfold exEntry
      rw [if_neg h]

theorem snapshot_map (cur : Str) :
    ∀ (bs : List Branch), (∀ br ∈ bs, goodName br.name = true) →
      ((bs.map (renderBranch cur)).filter
          (fun l => !decide (pyStrip l = []))).map branch_name
        = bs.map (exEntry cur)
  | [], _ => rfl
  | br :: bs, hall => by
    obtain ⟨hf, hn⟩ := filterEntry_renderBranch cur (hall br (by simp))
    rw [List.map_cons,
      List.filter_cons_of_pos (p := fun l => !decide (pyStrip l = [])) hf,
      List.map_cons, hn,
      snapshot_map cur bs fun x hx => hall x (List.mem_cons_of_mem _ hx),
      List.map_cons]

/-- The before/after snapshot of a rendered listing: one entry per branch, the
current branch contributing the empty name. -/
theorem branchSetOf_render (q : Repo) (hwf : wfRepo q) :
    branchSetOf (renderListing q) = (q.branches.map (exEntry q.current)).dedup := by
  obtain ⟨hnodup, hall, hcur⟩ := hwf
  cases hbs : q.branches with
  | nil =>
    rw [hbs] at hcur
    simp at hcur
  | cons b0 rest =>
    unfold branchSetOf
    rw [splitOnNl_render q b0 rest hbs hall]
    obtain ⟨hf, hn⟩ := filterEntry_processed_head q.current
      (hall b0 (by rw [hbs]; simp))
    rw [List.filter_cons_of_pos (p := fun l => !decide (pyStrip l = [])) hf,
      List.map_cons, hn,
      snapshot_map q.current rest
        fun x hx => hall x (by rw [hbs]; exact List.mem_cons_of_mem _ hx),
      List.map_cons]

/-! ## The state-based cleanup run (for C9) -/

/-- `git branch -D name` against the state: removes the branch. -/
def repoDelete (r : Repo) (n : Str) : Repo :=
  { r with branches := r.branches.filter fun br => !decide (br.name = n) }

/-- `git checkout name` against the state: succeeds iff the branch exists. -/
def repoCheckout (r : Repo) (n : Str) : Option Repo :=
  if n ∈ r.branches.map Branch.name then some { r with current := n } else none

/-- `cleanup_branches` (lines 22-158) run against the state-based git model,
from the state reached after the optional switch to main: snapshot, fetch -p
(a no-op under the claim's no-intervening-changes hypothesis), classify,
delete, snapshot again, diff, and optionally switch back.  `orig` is the
branch the run started on; `none` is an aborted run (no branch data). -/
def cleanupOnMain (orig : Str) (force : Bool) (rMain : Repo) : Option (Repo × List Str) :=
  let branches_before := branchSetOf (renderListing rMain)
  if renderListing rMain = [] then none
  else
    let plan := branches_to_delete (renderListing rMain) force
    let rDel := plan.foldl repoDelete rMain
    let branches_after := branchSetOf (renderListing rDel)
    let deleted_branches := setDiffSorted branches_before branches_after
    if orig = "main".toList then some (rDel, deleted_branches)
    else if orig ∈ deleted_branches then some (rDel, deleted_branches)
    else
      match repoCheckout rDel orig with
      | some rBack => some (rBack, deleted_branches)
      | none => some (rDel, deleted_branches)

/-- A full cleanup run: switch to main if needed (aborting when that checkout
fails), then the main body.  `none` is an aborted run. -/
def cleanupState (r : Repo) (force : Bool) : Option (Repo × List Str) :=
  match (if r.current = "main".toList then some r
         else repoCheckout r "main".toList) with
  | none => none
  | some rMain => cleanupOnMain r.current force rMain

theorem repoCheckout_mem {r : Repo} {n : Str} (h : n ∈ r.branches.map Branch.name) :
    repoCheckout r n = some { r with current := n } := by
  unfold repoCheckout
  rw [if_pos h]

theorem foldl_repoDelete_spec : ∀ (ns : List Str) (st : Repo),
    (ns.foldl repoDelete st).branches
        = st.branches.filter (fun br => !decide (br.name ∈ ns))
    ∧ (ns.foldl repoDelete st).current = st.current
  | [], st => by simp
  | n :: ns, st => by
    obtain ⟨h1, h2⟩ := foldl_repoDelete_spec ns (repoDelete st n)
    constructor
    · rw [List.foldl_cons, h1]
      unfold repoDelete
      rw [List.filter_filter]
      refine List.filter_congr ?_
      intro br _
      simp only [List.mem_cons]
      by_cases hn : br.name = n <;> by_cases hm : br.name ∈ ns <;> simp [hn, hm]
    · rw [List.foldl_cons, h2]
      rfl

theorem setDiffSorted_self (l : List Str) : setDiffSorted l l = [] := by
  unfold setDiffSorted
  have h : l.filter (fun n => !decide (n ∈ l)) = [] := by
    rw [List.filter_eq_nil_iff]
    intro a ha
    simp [ha]
  rw [h]
  rfl

theorem renderListing_ne_nil (q : Repo) (hne : q.branches ≠ []) :
    renderListing q ≠ [] := by
  unfold renderListing
  apply joinNl_ne_nil
  · simpa using hne
  · intro x hx
    obtain ⟨br, -, rfl⟩ := List.mem_map.mp hx
    exact renderBranch_ne_nil _ _

theorem name_mem_plan_iff {bs : List Branch} {cur : Str} {force : Bool} {br : Branch}
    (hnodup : (bs.map Branch.name).Nodup) (hbr : br ∈ bs) :
    br.name ∈ (bs.filter (fun b => decide (b.name ≠ cur) && selFlag force b)).map Branch.name
      ↔ (decide (br.name ≠ cur) && selFlag force br) = true := by
  constructor
  · intro h
    obtain ⟨br', hbr', hname⟩ := List.mem_map.mp h
    obtain ⟨hbr'mem, hsel⟩ := List.mem_filter.mp hbr'
    have he : br' = br := List.inj_on_of_nodup_map hnodup hbr'mem hbr hname
    rw [he] at hsel
    exact hsel
  · intro h
    exact List.mem_map.mpr ⟨br, List.mem_filter.mpr ⟨hbr, h⟩, rfl⟩

/-- After the deletion pass, the surviving branches are exactly those the
classification did not select. -/
theorem rDel_branches (q : Repo) (force : Bool) (hwf : wfRepo q) :
    ((branches_to_delete (renderListing q) force).foldl repoDelete q).branches
      = q.branches.filter
          (fun br => !(decide (br.name ≠ q.current) && selFlag force br)) := by
  obtain ⟨h1, -⟩ := foldl_repoDelete_spec (branches_to_delete (renderListing q) force) q
  rw [h1]
  refine List.filter_congr ?_
  intro br hbr
  by_cases h : (decide (br.name ≠ q.current) && selFlag force br) = true
  · have hm := (name_mem_plan_iff hwf.1 hbr).mpr h
    rw [branches_to_delete_render q force hwf]
    exact congrArg (fun x => !x) ((decide_eq_true hm).trans h.symm)
  · have hm : br.name
        ∉ (q.branches.filter
            (fun b => decide (b.name ≠ q.current) && selFlag force b)).map Branch.name :=
      fun hmem => h ((name_mem_plan_iff hwf.1 hbr).mp hmem)
    rw [branches_to_delete_render q force hwf]
    exact congrArg (fun x => !x)
      ((decide_eq_false hm).trans (Bool.eq_false_iff.mpr h).symm)

theorem cleanupOnMain_branches {orig : Str} {force : Bool} {rMain r1 : Repo} {d1 : List Str}
    (h : cleanupOnMain orig force rMain = some (r1, d1)) :
    r1.branches
        = ((branches_to_delete (renderListing rMain) force).foldl repoDelete rMain).branches
      ∧ (r1.current = rMain.current ∨ r1.current ∈ r1.branches.map Branch.name) := by
  simp only [cleanupOnMain] at h
  by_cases hl : renderListing rMain = []
  · rw [if_pos hl] at h
    cases h
  · rw [if_neg hl] at h
    by_cases ho : orig = "main".toList
    · rw [if_pos ho] at h
      simp only [Option.some.injEq, Prod.mk.injEq] at h
      rw [← h.1]
      exact ⟨rfl, Or.inl (foldl_repoDelete_spec _ _).2⟩
    · rw [if_neg ho] at h
      by_cases hd : orig ∈ setDiffSorted (branchSetOf (renderListing rMain))
          (branchSetOf (renderListing
            ((branches_to_delete (renderListing rMain) force).foldl repoDelete rMain)))
      · rw [if_pos hd] at h
        simp only [Option.some.injEq, Prod.mk.injEq] at h
        rw [← h.1]
        exact ⟨rfl, Or.inl (foldl_repoDelete_spec _ _).2⟩
      · rw [if_neg hd] at h
        cases hco : repoCheckout
            ((branches_to_delete (renderListing rMain) force).foldl repoDelete rMain)
            orig with
        | none =>
          rw [hco] at h
          simp only [Option.some.injEq, Prod.mk.injEq] at h
          rw [← h.1]
          exact ⟨rfl, Or.inl (foldl_repoDelete_spec _ _).2⟩
        | some rb =>
          rw [hco] at h
          simp only [Option.some.injEq, Prod.mk.injEq] at h
          unfold repoCheckout at hco
          by_cases hmem : orig
              ∈ ((branches_to_delete (renderListing rMain) force).foldl
                  repoDelete rMain).branches.map Branch.name
          · rw [if_pos hmem] at hco
            simp only [Option.some.injEq] at hco
            rw [← h.1, ← hco]
            refine ⟨rfl, Or.inr ?_⟩
            simpa using hmem
          · rw [if_neg hmem] at hco
            cases hco

theorem repoCheckout_not_mem {r : Repo} {n : Str}
    (h : n ∉ r.branches.map Branch.name) : repoCheckout r n = none := by
  unfold repoCheckout
  rw [if_neg h]

/-- A cleanup run over a state in which no branch is selectable deletes
nothing and reports an empty diff. -/
theorem cleanup_second_run (S : List Branch) (c2 : Str) (force : Bool)
    (hnodupS : (S.map Branch.name).Nodup)
    (hgoodS : ∀ br ∈ S, goodName br.name = true)
    (hmainS : "main".toList ∈ S.map Branch.name)
    (hc2 : c2 = "main".toList ∨ c2 ∈ S.map Branch.name)
    (hplan : ∀ br ∈ S, (decide (br.name ≠ "main".toList) && selFlag force br) = false) :
    ∃ r2, cleanupState ⟨S, c2⟩ force = some (r2, []) := by
  have hSne : S ≠ [] := by
    intro he
    rw [he] at hmainS
    simp at hmainS
  have hplan2 : branches_to_delete (renderListing ⟨S, "main".toList⟩) force = [] := by
    rw [branches_to_delete_render ⟨S, "main".toList⟩ force ⟨hnodupS, hgoodS, hmainS⟩]
    have hf : S.filter
        (fun br => decide (br.name ≠ "main".toList) && selFlag force br) = [] := by
      rw [List.filter_eq_nil_iff]
      intro br hbr hx
      have hx' : (decide (br.name ≠ "main".toList) && selFlag force br) = true := hx
      rw [hplan br hbr] at hx'
      cases hx'
    rw [show (Repo.mk S "main".toList).branches = S from rfl,
      show (Repo.mk S "main".toList).current = "main".toList from rfl, hf]
    rfl
  have hrun : ∀ orig : Str,
      ∃ r2, cleanupOnMain orig force ⟨S, "main".toList⟩ = some (r2, []) := by
    intro orig
    simp only [cleanupOnMain]
    rw [if_neg (renderListing_ne_nil _ hSne), hplan2]
    simp only [List.foldl_nil]
    rw [setDiffSorted_self]
    by_cases ho : orig = "main".toList
    · rw [if_pos ho]
      exact ⟨_, rfl⟩
    · rw [if_neg ho, if_neg (by simp)]
      cases hco : repoCheckout ⟨S, "main".toList⟩ orig with
      | some rb => exact ⟨rb, rfl⟩
      | none => exact ⟨_, rfl⟩
  by_cases hc2m : c2 = "main".toList
  · obtain ⟨r2, hr2⟩ := hrun c2
    refine ⟨r2, ?_⟩
    simp only [cleanupState]
    rw [if_pos hc2m]
    rw [show (Repo.mk S c2) = Repo.mk S "main".toList by rw [hc2m]]
    exact hr2
  · have hc2mem : c2 ∈ S.map Branch.name := hc2.resolve_left hc2m
    obtain ⟨r2, hr2⟩ := hrun c2
    refine ⟨r2, ?_⟩
    simp only [cleanupState]
    rw [if_neg hc2m, repoCheckout_mem (r := ⟨S, c2⟩) hmainS]
    exact hr2

/-- From a completed first run with the repository on main, the second run
reports an empty deleted set. -/
theorem cleanup_run_again (r : Repo) (force : Bool) (r1 : Repo) (d1 : List Str)
    (hnodup : (r.branches.map Branch.name).Nodup)
    (hgood : ∀ br ∈ r.branches, goodName br.name = true)
    (hmain : "main".toList ∈ r.branches.map Branch.name)
    (h : cleanupOnMain r.current force ⟨r.branches, "main".toList⟩ = some (r1, d1)) :
    ∃ r2, cleanupState r1 force = some (r2, []) := by
  have hwfM : wfRepo ⟨r.branches, "main".toList⟩ := ⟨hnodup, hgood, hmain⟩
  obtain ⟨hbr1, hcur1⟩ := cleanupOnMain_branches h
  rw [rDel_branches ⟨r.branches, "main".toList⟩ force hwfM] at hbr1
  have hnodupS : (r1.branches.map Branch.name).Nodup := by
    rw [hbr1]
    exact hnodup.sublist ((List.filter_sublist _).map _)
  have hgoodS : ∀ br ∈ r1.branches, goodName br.name = true := by
    intro br hbr
    rw [hbr1] at hbr
    exact hgood br (List.mem_filter.mp hbr).1
  have hmainS : "main".toList ∈ r1.branches.map Branch.name := by
    obtain ⟨brM, hbrM, hname⟩ := List.mem_map.mp hmain
    refine List.mem_map.mpr ⟨brM, ?_, hname⟩
    rw [hbr1]
    refine List.mem_filter.mpr ⟨hbrM, ?_⟩
    simp [hname]
  have hplanS : ∀ br ∈ r1.branches,
      (decide (br.name ≠ "main".toList) && selFlag force br) = false := by
    intro br hbr
    rw [hbr1] at hbr
    have h3 : (!(decide (br.name ≠ "main".toList) && selFlag force br)) = true :=
      (List.mem_filter.mp hbr).2
    cases hb : (decide (br.name ≠ "main".toList) && selFlag force br)
    · rfl
    · rw [hb] at h3
      cases h3
  obtain ⟨r2, hr2⟩ := cleanup_second_run r1.branches r1.current force
    hnodupS hgoodS hmainS hcur1 hplanS
  exact ⟨r2, hr2⟩

/-- C9: with a deterministic backend and no intervening branch changes,
running cleanup twice in succession yields an empty deleted-branches set on
the second run. -/
theorem C9_cleanup_idempotent :
    ∀ (r : Repo) (force : Bool) (r1 : Repo) (d1 : List Str),
      wfRepo r → cleanupState r force = some (r1, d1) →
      ∃ r2, cleanupState r1 force = some (r2, []) := by
  intro r force r1 d1 hwf h
  obtain ⟨hnodup, hgood, hcur⟩ := hwf
  simp only [cleanupState] at h
  by_cases hcm : r.current = "main".toList
  · rw [if_pos hcm] at h
    have hmain : "main".toList ∈ r.branches.map Branch.name := hcm ▸ hcur
    have h' : cleanupOnMain r.current force ⟨r.branches, "main".toList⟩
        = some (r1, d1) := by
      rw [← hcm]
      exact h
    exact cleanup_run_again r force r1 d1 hnodup hgood hmain h'
  · rw [if_neg hcm] at h
    by_cases hmem : "main".toList ∈ r.branches.map Branch.name
    · rw [repoCheckout_mem hmem] at h
      exact cleanup_run_again r force r1 d1 hnodup hgood hmem h
    · rw [repoCheckout_not_mem hmem] at h
      simp at h

/-- Witness for `C9_cleanup_idempotent`: a repository on branch feat with a
local-only feat and a tracked main; the first run deletes feat and stays on
main, the second run deletes nothing. -/
theorem C9_witness :
    ∃ r2, cleanupState ⟨[⟨"main".toList, true, false⟩], "main".toList⟩ false
        = some (r2, []) :=
  C9_cleanup_idempotent
    ⟨[⟨"main".toList, true, false⟩, ⟨"feat".toList, false, false⟩], "feat".toList⟩
    false
    ⟨[⟨"main".toList, true, false⟩], "main".toList⟩
    ["feat".toList]
    (by unfold wfRepo; refine ⟨by decide, by decide, by decide⟩)
    (by decide)
